import Mathlib

/-!
Verification of the `lambda` package of Luke-Davies/aws-lambda-go.

The development shallowly embeds the two source files of the package:

* `lambda/handler.go` — the typed handler adapter (`reflectHandler`,
  `newHandler`, the functional options, `errorHandler`, `handlerFunc.Invoke`);
* `lambda/entry.go` — the startup dispatcher (`start`, `startFunctions`).

Go's `encoding/json` decoder and encoder, as exercised by the adapter
(`Decoder.Decode`, `Encoder.Encode` with `SetEscapeHTML` / `SetIndent`), are
modelled by an executable JSON parser and printer over a `Json` value tree.
JSON numbers are modelled as integers: the adapter itself is agnostic to the
number representation, and floating point is outside the embedding.
Byte payloads are modelled as `List Char`.
-/

namespace AwsLambda

/-! ## The JSON document model

`Json` is the value a payload decodes to when the handler's declared input
type is the generic document type (Go `any` / `interface{}`), which is the
instantiation the claims about decoding and re-encoding quantify over.
Object fields keep their textual order. -/

inductive Json where
  | null
  | bool (b : Bool)
  | num (n : Int)
  | str (s : List Char)
  | arr (elems : List Json)
  | obj (fields : List (List Char × Json))

/-! ## Characters and digits -/

/-- JSON whitespace, as accepted between tokens by Go's `encoding/json`
scanner: space, tab, newline, carriage return. -/
def isWs (c : Char) : Bool :=
  c = ' ' ∨ c = '\t' ∨ c = '\n' ∨ c = '\r'

/-- The decimal digit character for `d < 10`. -/
def digitChar (d : Nat) : Char := Char.ofNat (48 + d)

/-- The numeric value of a decimal digit character, `none` on other
characters. -/
def digitVal (c : Char) : Option Nat :=
  if 48 ≤ c.toNat ∧ c.toNat ≤ 57 then some (c.toNat - 48) else none

/-- Lower-case hexadecimal digit character for `d < 16`, as Go's encoder
emits in `\u00xx` escapes. -/
def hexDigitChar (d : Nat) : Char :=
  if d < 10 then Char.ofNat (48 + d) else Char.ofNat (87 + d)

/-- The numeric value of a hexadecimal digit character (either case),
`none` on other characters. -/
def hexVal (c : Char) : Option Nat :=
  if 48 ≤ c.toNat ∧ c.toNat ≤ 57 then some (c.toNat - 48)
  else if 97 ≤ c.toNat ∧ c.toNat ≤ 102 then some (c.toNat - 87)
  else if 65 ≤ c.toNat ∧ c.toNat ≤ 70 then some (c.toNat - 55)
  else none

/-- The decimal digits of `n`, most significant first, no leading zeros
except for `n = 0` itself. -/
def natDigits (n : Nat) : List Char :=
  if _h : n < 10 then [digitChar n]
  else natDigits (n / 10) ++ [digitChar (n % 10)]
decreasing_by exact Nat.div_lt_self (by omega) (by omega)

/-- Decimal rendering of an integer, as Go's encoder writes an integral
number: optional minus sign followed by the digits. -/
def printInt (i : Int) : List Char :=
  if i < 0 then '-' :: natDigits i.natAbs else natDigits i.natAbs

/-! ## String escaping (Go `encoding/json` encoder)

With HTML escaping off (the `SetEscapeHTML(false)` the adapter applies by
default) the encoder escapes `"` and `\`, writes `\n`, `\r`, `\t` for those
control characters and `\u00xx` for the remaining ones below `0x20`, and
escapes U+2028/U+2029; every other character is written verbatim. With HTML
escaping on, `<`, `>` and `&` are additionally written as `<`, `>`,
`&`. -/

/-- The encoder's rendering of one string character under the
`escapeHTML` flag. -/
def escapeChar (escapeHTML : Bool) (c : Char) : List Char :=
  if c = '"' then ['\\', '"']
  else if c = '\\' then ['\\', '\\']
  else if c = '\n' then ['\\', 'n']
  else if c = '\r' then ['\\', 'r']
  else if c = '\t' then ['\\', 't']
  else if c.toNat < 32 then
    ['\\', 'u', '0', '0', hexDigitChar (c.toNat / 16), hexDigitChar (c.toNat % 16)]
  else if escapeHTML ∧ (c = '<' ∨ c = '>' ∨ c = '&') then
    ['\\', 'u', '0', '0', hexDigitChar (c.toNat / 16), hexDigitChar (c.toNat % 16)]
  else if c.toNat = 0x2028 ∨ c.toNat = 0x2029 then
    ['\\', 'u', '2', '0', '2', hexDigitChar (c.toNat % 16)]
  else [c]

/-- The encoder's rendering of a string body (without the surrounding
quotes). -/
def escStr (escapeHTML : Bool) : List Char → List Char
  | [] => []
  | c :: r => escapeChar escapeHTML c ++ escStr escapeHTML r

/-! ## The compact printer (Go `json.Marshal` of a document value) -/

mutual

/-- Compact JSON rendering of a value, exactly as Go's `json.Marshal`
writes a generic document value: no whitespace, fields in order. -/
def printVal (esc : Bool) : Json → List Char
  | .num i => printInt i
  | .str s => '"' :: (escStr esc s ++ ['"'])
  | .arr [] => ['[', ']']
  | .arr (v :: vs) => '[' :: (printVal esc v ++ printArrRest esc vs)
  | .obj [] => ['{', '}']
  | .obj (f :: fs) => '{' :: (printField esc f ++ printObjRest esc fs)
  | .bool false => ['f', 'a', 'l', 's', 'e']
  | .bool true => ['t', 'r', 'u', 'e']
  | .null => ['n', 'u', 'l', 'l']

/-- Rendering of the remaining elements of a non-empty array, starting at
the separator before each and ending with the closing bracket. -/
def printArrRest (esc : Bool) : List Json → List Char
  | [] => [']']
  | v :: vs => ',' :: (printVal esc v ++ printArrRest esc vs)

/-- Rendering of one object field: quoted escaped key, colon, value. -/
def printField (esc : Bool) : List Char × Json → List Char
  | (k, v) => '"' :: (escStr esc k ++ '"' :: ':' :: printVal esc v)

/-- Rendering of the remaining fields of a non-empty object, starting at
the separator before each and ending with the closing brace. -/
def printObjRest (esc : Bool) : List (List Char × Json) → List Char
  | [] => ['}']
  | f :: fs => ',' :: (printField esc f ++ printObjRest esc fs)

end

/-! ## The decoder (Go `json.Decoder.Decode` into a document value)

`Decoder.Decode` reads the first JSON value of the stream, skipping
whitespace between tokens, and leaves everything after that value unread.
A string body may not contain raw control characters; escapes are the
standard ones plus `\uXXXX`.  A number literal beginning with `0` ends at
that digit (Go's scanner completes the value there).  The parser is fueled:
one unit of fuel is spent per nesting step, and every call consumes at
least one input character, so `length + 1` fuel always suffices. -/

/-- Skip JSON inter-token whitespace. -/
def skipWs : List Char → List Char
  | [] => []
  | c :: r => if isWs c then skipWs r else c :: r

/-- The character denoted by a single-character escape `\e`. -/
def unescapeChar (e : Char) : Option Char :=
  if e = '"' then some '"'
  else if e = '\\' then some '\\'
  else if e = '/' then some '/'
  else if e = 'b' then some (Char.ofNat 8)
  else if e = 'f' then some (Char.ofNat 12)
  else if e = 'n' then some '\n'
  else if e = 'r' then some '\r'
  else if e = 't' then some '\t'
  else none

/-- The code point denoted by the four hex digits of a `\uXXXX` escape. -/
def hex4 (a b c d : Char) : Option Nat := do
  let x ← hexVal a
  let y ← hexVal b
  let z ← hexVal c
  let w ← hexVal d
  some (x * 4096 + y * 256 + z * 16 + w)

/-- Parse a string body up to and including the closing quote, returning
the unescaped characters and the rest of the input. -/
def parseStr : List Char → Option (List Char × List Char)
  | [] => none
  | c :: r =>
    if c = '"' then some ([], r)
    else if c = '\\' then
      match r with
      | [] => none
      | e :: r1 =>
        if e = 'u' then
          match r1 with
          | h1 :: h2 :: h3 :: h4 :: r2 =>
            match hex4 h1 h2 h3 h4 with
            | some n =>
              match parseStr r2 with
              | some (s, rest) => some (Char.ofNat n :: s, rest)
              | none => none
            | none => none
          | _ => none
        else
          match unescapeChar e with
          | some d =>
            match parseStr r1 with
            | some (s, rest) => some (d :: s, rest)
            | none => none
          | none => none
    else if c.toNat < 32 then none
    else
      match parseStr r with
      | some (s, rest) => some (c :: s, rest)
      | none => none

/-- Greedily consume decimal digits, accumulating their value. -/
def parseDigitsAux : Nat → List Char → Nat × List Char
  | acc, [] => (acc, [])
  | acc, c :: r =>
    match digitVal c with
    | some d => parseDigitsAux (acc * 10 + d) r
    | none => (acc, c :: r)

/-- Parse an unsigned integer literal.  A literal starting with `0` is the
single digit `0`: Go's scanner ends the number value there. -/
def parseNum : List Char → Option (Nat × List Char)
  | [] => none
  | c :: r =>
    match digitVal c with
    | some 0 => some (0, r)
    | some d => some (parseDigitsAux d r)
    | none => none

mutual

/-- Parse the first JSON value of the input, returning it and the
remaining, unread input. -/
def parseVal : Nat → List Char → Option (Json × List Char)
  | 0, _ => none
  | fuel + 1, cs =>
    match skipWs cs with
    | [] => none
    | c :: r =>
      if c = '{' then
        match skipWs r with
        | [] => none
        | c1 :: r1 =>
          if c1 = '}' then some (.obj [], r1)
          else
            match parseField fuel (c1 :: r1) with
            | some (f, rest) =>
              match parseObjRest fuel rest with
              | some (fs, rest1) => some (.obj (f :: fs), rest1)
              | none => none
            | none => none
      else if c = '[' then
        match skipWs r with
        | [] => none
        | c1 :: r1 =>
          if c1 = ']' then some (.arr [], r1)
          else
            match parseVal fuel (c1 :: r1) with
            | some (v, rest) =>
              match parseArrRest fuel rest with
              | some (vs, rest1) => some (.arr (v :: vs), rest1)
              | none => none
            | none => none
      else if c = '"' then
        match parseStr r with
        | some (s, rest) => some (.str s, rest)
        | none => none
      else if c = 't' then
        match r with
        | 'r' :: 'u' :: 'e' :: rest => some (.bool true, rest)
        | _ => none
      else if c = 'f' then
        match r with
        | 'a' :: 'l' :: 's' :: 'e' :: rest => some (.bool false, rest)
        | _ => none
      else if c = 'n' then
        match r with
        | 'u' :: 'l' :: 'l' :: rest => some (.null, rest)
        | _ => none
      else if c = '-' then
        match parseNum r with
        | some (n, rest) => some (.num (-(n : Int)), rest)
        | none => none
      else
        match parseNum (c :: r) with
        | some (n, rest) => some (.num (n : Int), rest)
        | none => none

/-- After an array element: a separator and another element, or the
closing bracket. -/
def parseArrRest : Nat → List Char → Option (List Json × List Char)
  | 0, _ => none
  | fuel + 1, cs =>
    match skipWs cs with
    | [] => none
    | c :: r =>
      if c = ']' then some ([], r)
      else if c = ',' then
        match parseVal fuel r with
        | some (v, rest) =>
          match parseArrRest fuel rest with
          | some (vs, rest1) => some (v :: vs, rest1)
          | none => none
        | none => none
      else none

/-- One object field: quoted key, colon, value. -/
def parseField : Nat → List Char → Option ((List Char × Json) × List Char)
  | 0, _ => none
  | fuel + 1, cs =>
    match skipWs cs with
    | [] => none
    | c :: r =>
      if c = '"' then
        match parseStr r with
        | some (k, rest) =>
          match skipWs rest with
          | [] => none
          | c1 :: r1 =>
            if c1 = ':' then
              match parseVal fuel r1 with
              | some (v, rest1) => some ((k, v), rest1)
              | none => none
            else none
        | none => none
      else none

/-- After an object field: a separator and another field, or the closing
brace. -/
def parseObjRest : Nat → List Char → Option (List (List Char × Json) × List Char)
  | 0, _ => none
  | fuel + 1, cs =>
    match skipWs cs with
    | [] => none
    | c :: r =>
      if c = '}' then some ([], r)
      else if c = ',' then
        match parseField fuel r with
        | some (f, rest) =>
          match parseObjRest fuel rest with
          | some (fs, rest1) => some (f :: fs, rest1)
          | none => none
        | none => none
      else none

end

/-- `Decoder.Decode` on a payload: read the first JSON value, leave the
rest of the payload unread.  `length + 1` fuel is enough for any input the
parser accepts at all, since each unit of fuel guards at least one consumed
character. -/
def jsonDecode (payload : List Char) : Option (Json × List Char) :=
  parseVal (payload.length + 1) payload

/-! ## The indenting encoder (Go `Encoder.Encode` with `SetIndent`)

With a non-trivial indent configuration, Go's encoder marshals the value
compactly and then re-indents it with `json.Indent`: after every opening
delimiter or element separator the output moves to a new line made of a
newline, the prefix, and one indent unit per nesting level, a closing
delimiter of a non-empty compound moves to its own line, and a colon gains
a trailing space.  String contents are copied verbatim.  The traversal is
fueled by the input length; nothing in the claims depends on the exact
indented shape, only on it being returned untouched. -/

/-- A new output line at the given depth: newline, prefix, `depth` indent
units. -/
def nlIndent (pre ind : List Char) (depth : Nat) : List Char :=
  '\n' :: (pre ++ (List.replicate depth ind).flatten)

/-- One step of `json.Indent` over compact input.  The two booleans track
a pending indent after an opening delimiter and being inside a string. -/
def goIndentAux (pre ind : List Char) :
    Nat → Nat → Bool → Bool → List Char → List Char
  | 0, _, _, _, _ => []
  | _ + 1, _, _, _, [] => []
  | fuel + 1, depth, needIndent, inString, c :: r =>
    if inString then
      if c = '\\' then
        match r with
        | d :: r1 => c :: d :: goIndentAux pre ind fuel depth needIndent true r1
        | [] => [c]
      else if c = '"' then c :: goIndentAux pre ind fuel depth needIndent false r
      else c :: goIndentAux pre ind fuel depth needIndent true r
    else
      if c = '{' ∨ c = '[' then
        (if needIndent then nlIndent pre ind depth else []) ++
          c :: goIndentAux pre ind fuel (depth + 1) true false r
      else if c = '}' ∨ c = ']' then
        if needIndent then c :: goIndentAux pre ind fuel (depth - 1) false false r
        else nlIndent pre ind (depth - 1) ++
          c :: goIndentAux pre ind fuel (depth - 1) false false r
      else if c = ',' then
        c :: (nlIndent pre ind depth ++ goIndentAux pre ind fuel depth false false r)
      else if c = ':' then
        c :: ' ' :: goIndentAux pre ind fuel depth false false r
      else if c = '"' then
        (if needIndent then nlIndent pre ind depth else []) ++
          c :: goIndentAux pre ind fuel depth false true r
      else
        (if needIndent then nlIndent pre ind depth else []) ++
          c :: goIndentAux pre ind fuel depth false false r

/-- `json.Indent` over the compact rendering. -/
def goIndent (pre ind src : List Char) : List Char :=
  goIndentAux pre ind (src.length + 1) 0 false false src

/-! ## The typed handler adapter (`lambda/handler.go`)

The user function shape.  `HandlerFunc[TIn, TOut]` in the source is the
single core type `func(context.Context, TIn) (TOut, error)`: the adapter
calls `f(ctx, *event)` through the type parameter (handler.go line 183),
which Go permits only when the constraint has that one signature, and the
repository's README describes the project as reducing the runtime to a
single function signature. -/

/-- What the adapter observes of a `context.Context`: whether
`handlertrace.FromContext` finds a request-event callback and whether it
finds a response-event callback. -/
structure Context where
  hasRequestEvent : Bool := false
  hasResponseEvent : Bool := false
deriving DecidableEq

/-- `context.Background()`: no trace callbacks registered. -/
def Context.background : Context := {}

/-- The single supported user-function shape,
`func(context.Context, TIn) (TOut, error)`. -/
def HandlerFunc (TIn TOut : Type) : Type := Context → TIn → Except String TOut

/-- The user function at the generic document instantiation, the one the
decoding and encoding claims quantify over. -/
abbrev Handler := HandlerFunc Json Json

/-- The eight handler shapes enumerated by the specification: an optional
leading context parameter, an optional typed input parameter, an optional
typed output value, always a trailing error. -/
inductive HandlerShape where
  | bare | outOnly | inOnly | inOut
  | ctx | ctxOut | ctxIn | ctxInOut
deriving DecidableEq

/-- The shapes the specification claims the registration surface accepts
(spec §4.1 step 4; stated from the spec's words, for comparison with the
source). -/
def specClaimedShapes : List HandlerShape :=
  [.bare, .outOnly, .inOnly, .inOut, .ctx, .ctxOut, .ctxIn, .ctxInOut]

/-- The shapes the source accepts: `HandlerFunc[TIn, TOut]` has the single
core type `func(context.Context, TIn) (TOut, error)` — the adapter calls
`f(ctx, *event)` through the type parameter, which pins the constraint to
exactly that signature. -/
def sourceHandlerShapes : List HandlerShape := [.ctxInOut]

/-- SIGTERM callbacks are opaque `func()` values; they are modelled by
identifying tokens, so that order and multiplicity are observable. -/
abbrev Callback := Nat

/-- `handlerOptions` (handler.go): the configuration bundle `newHandler`
builds.  The embedded `handlerFunc` field is represented by passing the
wrapped user function to `reflectInvoke` alongside the options. -/
structure HandlerOptions where
  baseContext : Context := Context.background
  jsonResponseEscapeHTML : Bool := false
  jsonResponseIndentPrefix : List Char := []
  jsonResponseIndentValue : List Char := []
  enableSIGTERM : Bool := false
  sigtermCallbacks : List Callback := []
deriving DecidableEq

/-- `type Option func(*handlerOptions)` — named `HOption` because `Option`
is taken by Lean's core library. -/
def HOption : Type := HandlerOptions → HandlerOptions

/-- `WithContext`: set the base context for all invocations. -/
def WithContext (ctx : Context) : HOption :=
  fun h => { h with baseContext := ctx }

/-- `WithSetEscapeHTML`: set the `SetEscapeHTML` argument of the response
encoder. -/
def WithSetEscapeHTML (escapeHTML : Bool) : HOption :=
  fun h => { h with jsonResponseEscapeHTML := escapeHTML }

/-- `WithSetIndent`: set the `SetIndent` arguments of the response
encoder. -/
def WithSetIndent (pre ind : List Char) : HOption :=
  fun h => { h with jsonResponseIndentPrefix := pre, jsonResponseIndentValue := ind }

/-- `WithEnableSIGTERM`: append the given callbacks to the accumulated
list and flip the enablement flag. -/
def WithEnableSIGTERM (callbacks : List Callback) : HOption :=
  fun h => { h with
    sigtermCallbacks := h.sigtermCallbacks ++ callbacks
    enableSIGTERM := true }

/-- The hard-coded defaults `newHandler` starts from: background context,
no HTML escaping, no indentation. -/
def defaultOptions : HandlerOptions := {}

/-- `newHandler`: fold the option functions left to right over the
defaults and, if the SIGTERM flag ended up set, register the OS
shutdown-signal listener (`enableSIGTERM(h.sigtermCallbacks)`) exactly
once.  The second component records the listener registrations the
construction performed, each carrying the callback list it registered. -/
def newHandler (options : List HOption) : HandlerOptions × List (List Callback) :=
  let h := options.foldl (fun acc o => o acc) defaultOptions
  (h, if h.enableSIGTERM then [h.sigtermCallbacks] else [])

/-- Modelled from the spec: the body of `enableSIGTERM` (the OS
shutdown-signal listener) is not among the source files; per the spec, when
the shutdown signal fires, every registered listener runs its callbacks
synchronously in registration order, each exactly once. -/
def fireShutdown (registered : List (List Callback)) : List Callback :=
  registered.flatten

/-- The error half of an invocation, with its provenance: the permanent
construction-failure error (`errors.New("handler is nil")`), an error of
the payload decoder, or the error value returned by the user function. -/
inductive InvokeErr where
  | nilHandler
  | decodeErr
  | userErr (e : String)
deriving DecidableEq

/-- The message carried by the error value. -/
def InvokeErr.message : InvokeErr → String
  | .nilHandler => "handler is nil"
  | .decodeErr => "json decode error"
  | .userErr e => e

/-- The observable steps of one invocation, in the order they happen:
running the request-trace callback on the decoded event, calling the user
function with the context and the decoded event, running the
response-trace callback on its result, and encoding the result. -/
inductive Event where
  | requestTrace (v : Json)
  | userCall (c : Context) (v : Json)
  | responseTrace (v : Json)
  | encoded (v : Json)

/-- The state after one invocation: the contents of the adapter's reusable
output buffer, the `(bytes, error)` result handed to the caller, and the
log of observable steps. -/
structure InvokeResult where
  buffer : List Char
  result : Except InvokeErr (List Char)
  events : List Event

/-- `Encoder.Encode` of the response under the configured options: compact
marshalling, re-indented when an indent configuration is present, and the
encoder's trailing newline. -/
def encodeOut (h : HandlerOptions) (v : Json) : List Char :=
  let compact := printVal h.jsonResponseEscapeHTML v
  (if h.jsonResponseIndentPrefix = [] ∧ h.jsonResponseIndentValue = [] then compact
   else goIndent h.jsonResponseIndentPrefix h.jsonResponseIndentValue compact) ++ ['\n']

/-- One invocation of the adapter built by `reflectHandler f h`
(handler.go lines 159–203), combined with `handlerFunc.Invoke`, which
turns the returned buffer into bytes.  `f = none` is a nil user function:
`reflectHandler` then returns `errorHandler(errors.New("handler is
nil"))`, which ignores its inputs, touches nothing, and always returns
that error.  Otherwise: reset the reusable buffer, decode the first JSON
value of the payload, run the request-trace callback if registered, call
the user function with the context and the decoded event, propagate its
error verbatim, run the response-trace callback if registered, encode the
response, and strip the encoder's trailing newline unless `WithSetIndent`
was used. -/
def reflectInvoke (f : Option Handler) (h : HandlerOptions) (buf : List Char)
    (ctx : Context) (payload : List Char) : InvokeResult :=
  match f with
  | none => { buffer := buf, result := .error .nilHandler, events := [] }
  | some f =>
    match jsonDecode payload with
    | none => { buffer := [], result := .error .decodeErr, events := [] }
    | some (event, _rest) =>
      let ev1 := if ctx.hasRequestEvent then [Event.requestTrace event] else []
      match f ctx event with
      | .error e =>
        { buffer := []
          result := .error (.userErr e)
          events := ev1 ++ [.userCall ctx event] }
      | .ok response =>
        let ev2 := if ctx.hasResponseEvent then [Event.responseTrace response] else []
        let written := encodeOut h response
        let buf1 :=
          if h.jsonResponseIndentValue = [] ∧ h.jsonResponseIndentPrefix = [] then
            written.dropLast
          else written
        { buffer := buf1
          result := .ok buf1
          events := ev1 ++ [.userCall ctx event] ++ ev2 ++ [.encoded response] }

/-! ## The startup dispatcher (`lambda/entry.go`) -/

/-- The environment variables of the registered start functions, in order:
only `runtimeAPIStartFunction` is registered. -/
def startEnvNames : List String := ["AWS_LAMBDA_RUNTIME_API"]

/-- What `start` does, in order: hand control to a mode's loop function,
or report a fatal error through the injectable `logFatalf` hook (which
never returns). -/
inductive StartEvent where
  | loopCall (env : String) (value : String)
  | fatal (msg : String)
deriving DecidableEq

/-- Go's `%s` formatting of a string slice: the elements joined by single
spaces, in brackets. -/
def goStringSlice (keys : List String) : String :=
  "[" ++ String.intercalate " " keys ++ "]"

/-- The fatal message `start` logs when no recognized environment variable
is set, enumerating the variables it checked. -/
def missingEnvMsg (keys : List String) : String :=
  "expected AWS Lambda environment variables " ++ goStringSlice keys ++ " are not defined"

/-- The loop of `start` over the registered start functions.  A non-empty
variable hands control to that mode's loop function — `startRuntimeAPILoop`
is outside the embedded sources, so only the dispatch (its environment
value and its returned error, `loopErr`) is modelled — and any return from
it is fatal.  An empty variable records the name as checked.  `logFatalf`
terminates the process, so a `fatal` event always ends the trace. -/
def startLoop (getenv : String → String) (loopErr : String → String) :
    List String → List String → List StartEvent
  | [], keys => [.fatal (missingEnvMsg keys)]
  | e :: rest, keys =>
    let config := getenv e
    if config = "" then startLoop getenv loopErr rest (keys ++ [e])
    else [.loopCall e config, .fatal (loopErr config)]

/-- `start` (entry.go lines 26–40). -/
def start (getenv : String → String) (loopErr : String → String) : List StartEvent :=
  startLoop getenv loopErr startEnvNames []

/-! ## Digit and character lemmas -/

/-- Whether the input begins with something other than a decimal digit, so
that a preceding number literal cannot absorb it. -/
def nonDigit : List Char → Bool
  | [] => true
  | c :: _ => (digitVal c).isNone

/-- The numeric value accumulated by reading the given digit characters
after an already-accumulated value. -/
def valAppend (acc : Nat) (ds : List Char) : Nat :=
  ds.foldl (fun a c => a * 10 + ((digitVal c).getD 0)) acc

theorem digitVal_digitChar {d : Nat} (h : d < 10) : digitVal (digitChar d) = some d := by
  interval_cases d <;> decide

theorem hexVal_hexDigitChar {d : Nat} (h : d < 16) : hexVal (hexDigitChar d) = some d := by
  interval_cases d <;> decide

theorem digitChar_props {d : Nat} (h : d < 10) :
    isWs (digitChar d) = false ∧ digitChar d ≠ '{' ∧ digitChar d ≠ '[' ∧
    digitChar d ≠ '"' ∧ digitChar d ≠ 't' ∧ digitChar d ≠ 'f' ∧
    digitChar d ≠ 'n' ∧ digitChar d ≠ '-' ∧ digitChar d ≠ ']' ∧ digitChar d ≠ '}' := by
  interval_cases d <;> decide

/-- The digit rendering of any number starts with a digit character. -/
theorem natDigits_cons (n : Nat) :
    ∃ d ds, natDigits n = digitChar d :: ds ∧ d < 10 := by
  induction n using Nat.strong_induction_on with
  | _ n ih =>
    rw [natDigits]
    by_cases h : n < 10
    · exact ⟨n, [], by simp [h], h⟩
    · obtain ⟨d, ds, hds, hd⟩ := ih (n / 10) (Nat.div_lt_self (by omega) (by omega))
      exact ⟨d, ds ++ [digitChar (n % 10)], by simp [h, hds], hd⟩

/-- Every character of the digit rendering is a digit character. -/
theorem natDigits_mem {n : Nat} {c : Char} (hc : c ∈ natDigits n) :
    ∃ d, d < 10 ∧ c = digitChar d := by
  induction n using Nat.strong_induction_on with
  | _ n ih =>
    rw [natDigits] at hc
    by_cases h : n < 10
    · simp [h] at hc
      exact ⟨n, h, hc⟩
    · simp [h] at hc
      rcases hc with hc | hc
      · exact ih (n / 10) (Nat.div_lt_self (by omega) (by omega)) hc
      · exact ⟨n % 10, Nat.mod_lt _ (by omega), hc⟩

/-- The digit rendering of a positive number starts with a non-zero
digit. -/
theorem natDigits_cons_pos {n : Nat} (hn : 0 < n) :
    ∃ d ds, natDigits n = digitChar d :: ds ∧ 0 < d ∧ d < 10 := by
  induction n using Nat.strong_induction_on with
  | _ n ih =>
    rw [natDigits]
    by_cases h : n < 10
    · exact ⟨n, [], by simp [h], hn, h⟩
    · obtain ⟨d, ds, hds, hd0, hd⟩ :=
        ih (n / 10) (Nat.div_lt_self (by omega) (by omega)) (by omega)
      exact ⟨d, ds ++ [digitChar (n % 10)], by simp [h, hds], hd0, hd⟩

/-- Reading back the digit rendering accumulates exactly the rendered
number. -/
theorem valAppend_natDigits (n : Nat) :
    ∀ acc, valAppend acc (natDigits n) = acc * 10 ^ (natDigits n).length + n := by
  induction n using Nat.strong_induction_on with
  | _ n ih =>
    intro acc
    rw [natDigits]
    by_cases h : n < 10
    · simp only [h, dite_true, valAppend, List.foldl_cons, List.foldl_nil,
        digitVal_digitChar h, Option.getD_some, List.length_singleton, pow_one]
    · have hlt : n / 10 < n := Nat.div_lt_self (by omega) (by omega)
      simp only [h, dite_false, valAppend, List.foldl_append, List.foldl_cons,
        List.foldl_nil, List.length_append, List.length_singleton,
        digitVal_digitChar (Nat.mod_lt n (show 0 < 10 by omega)), Option.getD_some]
      have h1 := ih (n / 10) hlt acc
      rw [valAppend] at h1
      rw [h1, pow_succ]
      have h2 : 10 * (n / 10) + n % 10 = n := Nat.div_add_mod n 10
      ring_nf
      omega

/-! ## Number parsing lemmas -/

theorem parseDigitsAux_spec :
    ∀ (ds : List Char) (acc : Nat) (s : List Char),
      (∀ c ∈ ds, (digitVal c).isSome) → nonDigit s = true →
      parseDigitsAux acc (ds ++ s) = (valAppend acc ds, s) := by
  intro ds
  induction ds with
  | nil =>
    intro acc s _ hs
    cases s with
    | nil => simp [parseDigitsAux, valAppend]
    | cons c r =>
      simp only [nonDigit, Option.isNone_iff_eq_none] at hs
      simp [parseDigitsAux, hs, valAppend]
  | cons c ds ih =>
    intro acc s hds hs
    obtain ⟨d, hd⟩ := Option.isSome_iff_exists.mp (hds c (by simp))
    simp only [List.cons_append, parseDigitsAux, hd, List.append_eq]
    rw [ih (acc * 10 + d) s (fun x hx => hds x (by simp [hx])) hs]
    simp [valAppend, hd]

/-- Reading back the digit rendering of `n` yields `n` and leaves the
non-digit continuation untouched. -/
theorem parseNum_natDigits (n : Nat) {s : List Char} (hs : nonDigit s = true) :
    parseNum (natDigits n ++ s) = some (n, s) := by
  by_cases h0 : n = 0
  · subst h0
    rw [natDigits]
    cases s with
    | nil => simp [parseNum, digitChar, digitVal]
    | cons c r => simp [parseNum, digitChar, digitVal]
  · obtain ⟨d, ds, hds, hd0, hd⟩ := natDigits_cons_pos (Nat.pos_of_ne_zero h0)
    have hmem : ∀ c ∈ ds, (digitVal c).isSome := by
      intro c hc
      obtain ⟨e, he, hce⟩ := natDigits_mem (n := n) (by rw [hds]; exact List.mem_cons_of_mem _ hc)
      rw [hce, digitVal_digitChar he]
      rfl
    have hval : valAppend d ds = n := by
      have h1 := valAppend_natDigits n 0
      rw [hds] at h1
      simpa [valAppend, digitVal_digitChar hd] using h1
    obtain ⟨e, rfl⟩ : ∃ e, d = e + 1 := ⟨d - 1, by omega⟩
    rw [hds]
    simp only [List.cons_append, parseNum, digitVal_digitChar hd]
    rw [parseDigitsAux_spec ds (e + 1) s hmem hs, hval]

/-! ## String parsing lemmas -/

theorem parseStr_quote (r : List Char) : parseStr ('"' :: r) = some ([], r) := by
  rw [parseStr.eq_def]
  simp

theorem parseStr_plain {c : Char} (r : List Char)
    (h1 : c ≠ '"') (h2 : c ≠ '\\') (h3 : ¬ c.toNat < 32) :
    parseStr (c :: r) =
      match parseStr r with
      | some (s, rest) => some (c :: s, rest)
      | none => none := by
  rw [parseStr.eq_def]
  simp [h1, h2, h3]

theorem parseStr_escapeCode {e : Char} {d : Char} (r : List Char)
    (he : e ≠ 'u') (hd : unescapeChar e = some d) :
    parseStr ('\\' :: e :: r) =
      match parseStr r with
      | some (s, rest) => some (d :: s, rest)
      | none => none := by
  rw [parseStr.eq_def]
  simp [he, hd]

theorem parseStr_unicode {a b c d : Char} {n : Nat} (r : List Char)
    (hx : hex4 a b c d = some n) :
    parseStr ('\\' :: 'u' :: a :: b :: c :: d :: r) =
      match parseStr r with
      | some (s, rest) => some (Char.ofNat n :: s, rest)
      | none => none := by
  rw [parseStr.eq_def]
  simp [hx]

/-- Reading back an escaped string body up to its closing quote recovers
the characters and leaves the continuation untouched. -/
theorem parseStr_escStr (k : List Char) :
    ∀ s, parseStr (escStr false k ++ ('"' :: s)) = some (k, s) := by
  induction k with
  | nil => intro s; simpa [escStr] using parseStr_quote s
  | cons c k ih =>
    intro s
    have step : escStr false (c :: k) ++ ('"' :: s) =
        escapeChar false c ++ (escStr false k ++ ('"' :: s)) := by
      simp [escStr]
    rw [step]
    by_cases h1 : c = '"'
    · subst h1
      rw [show escapeChar false '"' = ['\\', '"'] from rfl]
      simp only [List.cons_append, List.nil_append]
      rw [parseStr_escapeCode _ (by decide) (show unescapeChar '"' = some '"' from rfl), ih]
    · by_cases h2 : c = '\\'
      · subst h2
        rw [show escapeChar false '\\' = ['\\', '\\'] from rfl]
        simp only [List.cons_append, List.nil_append]
        rw [parseStr_escapeCode _ (by decide) (show unescapeChar '\\' = some '\\' from rfl), ih]
      · by_cases h3 : c = '\n'
        · subst h3
          rw [show escapeChar false '\n' = ['\\', 'n'] from rfl]
          simp only [List.cons_append, List.nil_append]
          rw [parseStr_escapeCode _ (by decide) (show unescapeChar 'n' = some '\n' from rfl), ih]
        · by_cases h4 : c = '\r'
          · subst h4
            rw [show escapeChar false '\r' = ['\\', 'r'] from rfl]
            simp only [List.cons_append, List.nil_append]
            rw [parseStr_escapeCode _ (by decide) (show unescapeChar 'r' = some '\r' from rfl), ih]
          · by_cases h5 : c = '\t'
            · subst h5
              rw [show escapeChar false '\t' = ['\\', 't'] from rfl]
              simp only [List.cons_append, List.nil_append]
              rw [parseStr_escapeCode _ (by decide) (show unescapeChar 't' = some '\t' from rfl), ih]
            · by_cases h6 : c.toNat < 32
              · have hesc : escapeChar false c =
                    ['\\', 'u', '0', '0', hexDigitChar (c.toNat / 16), hexDigitChar (c.toNat % 16)] := by
                  simp [escapeChar, h1, h2, h3, h4, h5, h6]
                have hhex : hex4 '0' '0' (hexDigitChar (c.toNat / 16)) (hexDigitChar (c.toNat % 16)) =
                    some c.toNat := by
                  have hq : c.toNat / 16 < 16 := by omega
                  have hr : c.toNat % 16 < 16 := Nat.mod_lt _ (by omega)
                  simp [hex4, hexVal_hexDigitChar hq, hexVal_hexDigitChar hr,
                    show hexVal '0' = some 0 from rfl]
                  omega
                rw [hesc]
                simp only [List.cons_append, List.nil_append]
                rw [parseStr_unicode _ hhex, ih, Char.ofNat_toNat]
              · by_cases h8 : c.toNat = 0x2028 ∨ c.toNat = 0x2029
                · have hesc : escapeChar false c =
                      ['\\', 'u', '2', '0', '2', hexDigitChar (c.toNat % 16)] := by
                    simp [escapeChar, h1, h2, h3, h4, h5, h6, h8]
                  have hhex : hex4 '2' '0' '2' (hexDigitChar (c.toNat % 16)) = some c.toNat := by
                    have hr : c.toNat % 16 < 16 := Nat.mod_lt _ (by omega)
                    simp [hex4, hexVal_hexDigitChar hr, show hexVal '2' = some 2 from rfl,
                      show hexVal '0' = some 0 from rfl]
                    omega
                  rw [hesc]
                  simp only [List.cons_append, List.nil_append]
                  rw [parseStr_unicode _ hhex, ih, Char.ofNat_toNat]
                · have hesc : escapeChar false c = [c] := by
                    simp [escapeChar, h1, h2, h3, h4, h5, h6, h8]
                  rw [hesc, List.singleton_append, parseStr_plain _ h1 h2 h6, ih]

/-! ## Step lemmas for the fueled parsers

Each lemma exposes one definitional reduction step of a parser on an input
with a known head character, so the round-trip induction can rewrite with
them. -/

theorem skipWs_cons {c : Char} (r : List Char) (h : isWs c = false) :
    skipWs (c :: r) = c :: r := by
  simp [skipWs, h]

theorem parseVal_succ (fuel : Nat) (cs : List Char) :
    parseVal (fuel + 1) cs =
      match skipWs cs with
      | [] => none
      | c :: r =>
        if c = '{' then
          match skipWs r with
          | [] => none
          | c1 :: r1 =>
            if c1 = '}' then some (.obj [], r1)
            else
              match parseField fuel (c1 :: r1) with
              | some (f, rest) =>
                match parseObjRest fuel rest with
                | some (fs, rest1) => some (.obj (f :: fs), rest1)
                | none => none
              | none => none
        else if c = '[' then
          match skipWs r with
          | [] => none
          | c1 :: r1 =>
            if c1 = ']' then some (.arr [], r1)
            else
              match parseVal fuel (c1 :: r1) with
              | some (v, rest) =>
                match parseArrRest fuel rest with
                | some (vs, rest1) => some (.arr (v :: vs), rest1)
                | none => none
              | none => none
        else if c = '"' then
          match parseStr r with
          | some (s, rest) => some (.str s, rest)
          | none => none
        else if c = 't' then
          match r with
          | 'r' :: 'u' :: 'e' :: rest => some (.bool true, rest)
          | _ => none
        else if c = 'f' then
          match r with
          | 'a' :: 'l' :: 's' :: 'e' :: rest => some (.bool false, rest)
          | _ => none
        else if c = 'n' then
          match r with
          | 'u' :: 'l' :: 'l' :: rest => some (.null, rest)
          | _ => none
        else if c = '-' then
          match parseNum r with
          | some (n, rest) => some (.num (-(n : Int)), rest)
          | none => none
        else
          match parseNum (c :: r) with
          | some (n, rest) => some (.num (n : Int), rest)
          | none => none := rfl

theorem parseArrRest_succ (fuel : Nat) (cs : List Char) :
    parseArrRest (fuel + 1) cs =
      match skipWs cs with
      | [] => none
      | c :: r =>
        if c = ']' then some ([], r)
        else if c = ',' then
          match parseVal fuel r with
          | some (v, rest) =>
            match parseArrRest fuel rest with
            | some (vs, rest1) => some (v :: vs, rest1)
            | none => none
          | none => none
        else none := rfl

theorem parseField_succ (fuel : Nat) (cs : List Char) :
    parseField (fuel + 1) cs =
      match skipWs cs with
      | [] => none
      | c :: r =>
        if c = '"' then
          match parseStr r with
          | some (k, rest) =>
            match skipWs rest with
            | [] => none
            | c1 :: r1 =>
              if c1 = ':' then
                match parseVal fuel r1 with
                | some (v, rest1) => some ((k, v), rest1)
                | none => none
              else none
          | none => none
        else none := rfl

theorem parseObjRest_succ (fuel : Nat) (cs : List Char) :
    parseObjRest (fuel + 1) cs =
      match skipWs cs with
      | [] => none
      | c :: r =>
        if c = '}' then some ([], r)
        else if c = ',' then
          match parseField fuel r with
          | some (f, rest) =>
            match parseObjRest fuel rest with
            | some (fs, rest1) => some (f :: fs, rest1)
            | none => none
          | none => none
        else none := rfl

/-! ## Shape lemmas for the printer -/

/-- Every printed value starts with a non-whitespace character that is not
a closing delimiter. -/
theorem printVal_cons (v : Json) :
    ∃ c cs, printVal false v = c :: cs ∧ isWs c = false ∧ c ≠ ']' ∧ c ≠ '}' := by
  cases v with
  | null => exact ⟨'n', ['u', 'l', 'l'], by simp [printVal], by decide, by decide, by decide⟩
  | bool b =>
    cases b with
    | true => exact ⟨'t', ['r', 'u', 'e'], by simp [printVal], by decide, by decide, by decide⟩
    | false =>
      exact ⟨'f', ['a', 'l', 's', 'e'], by simp [printVal], by decide, by decide, by decide⟩
  | num i =>
    by_cases hi : i < 0
    · exact ⟨'-', natDigits i.natAbs, by simp [printVal, printInt, hi],
        by decide, by decide, by decide⟩
    · obtain ⟨d, ds, hds, hd⟩ := natDigits_cons i.natAbs
      obtain ⟨p1, _, _, _, _, _, _, _, p9, p10⟩ := digitChar_props hd
      exact ⟨digitChar d, ds, by simp [printVal, printInt, hi, hds], p1, p9, p10⟩
  | str s =>
    exact ⟨'"', escStr false s ++ ['"'], by simp [printVal], by decide, by decide, by decide⟩
  | arr l =>
    cases l with
    | nil => exact ⟨'[', [']'], by simp [printVal], by decide, by decide, by decide⟩
    | cons v vs =>
      exact ⟨'[', printVal false v ++ printArrRest false vs, by simp [printVal],
        by decide, by decide, by decide⟩
  | obj l =>
    cases l with
    | nil => exact ⟨'{', ['}'], by simp [printVal], by decide, by decide, by decide⟩
    | cons f fs =>
      exact ⟨'{', printField false f ++ printObjRest false fs, by simp [printVal],
        by decide, by decide, by decide⟩

theorem printVal_length_pos (v : Json) : 1 ≤ (printVal false v).length := by
  obtain ⟨c, cs, h, -, -, -⟩ := printVal_cons v
  simp [h]

theorem printArrRest_length_pos (vs : List Json) :
    1 ≤ (printArrRest false vs).length := by
  cases vs <;> simp [printArrRest]

theorem printObjRest_length_pos (fs : List (List Char × Json)) :
    1 ≤ (printObjRest false fs).length := by
  cases fs <;> simp [printObjRest]

theorem printField_eq (k : List Char) (v : Json) :
    printField false (k, v) = '"' :: (escStr false k ++ '"' :: ':' :: printVal false v) := by
  simp [printField]

/-- What follows a printed element inside an array cannot extend a number
literal: it starts with a separator or a closing bracket. -/
theorem nonDigit_printArrRest (vs : List Json) (s : List Char) :
    nonDigit (printArrRest false vs ++ s) = true := by
  cases vs <;> rfl

/-- What follows a printed field inside an object cannot extend a number
literal: it starts with a separator or a closing brace. -/
theorem nonDigit_printObjRest (fs : List (List Char × Json)) (s : List Char) :
    nonDigit (printObjRest false fs ++ s) = true := by
  cases fs <;> rfl

/-! ## The printer–parser round trip

With enough fuel, reading back a printed value (under the default encoder
flags) recovers exactly that value and leaves any continuation that cannot
extend a number literal untouched.  The printed length bounds the fuel the
parse needs, one unit per nesting step. -/

theorem printParse (fuel : Nat) :
    (∀ v s, (printVal false v).length ≤ fuel → nonDigit s = true →
      parseVal fuel (printVal false v ++ s) = some (v, s)) ∧
    (∀ vs s, (printArrRest false vs).length ≤ fuel → nonDigit s = true →
      parseArrRest fuel (printArrRest false vs ++ s) = some (vs, s)) ∧
    (∀ f s, (printField false f).length ≤ fuel → nonDigit s = true →
      parseField fuel (printField false f ++ s) = some (f, s)) ∧
    (∀ fs s, (printObjRest false fs).length ≤ fuel → nonDigit s = true →
      parseObjRest fuel (printObjRest false fs ++ s) = some (fs, s)) := by
  induction fuel with
  | zero =>
    refine ⟨?_, ?_, ?_, ?_⟩
    · intro v s hlen _
      have := printVal_length_pos v
      omega
    · intro vs s hlen _
      have := printArrRest_length_pos vs
      omega
    · intro f s hlen _
      obtain ⟨k, v⟩ := f
      rw [printField_eq] at hlen
      simp only [List.length_cons] at hlen
      omega
    · intro fs s hlen _
      have := printObjRest_length_pos fs
      omega
  | succ fuel ih =>
    obtain ⟨ihV, ihA, ihF, ihO⟩ := ih
    refine ⟨?_, ?_, ?_, ?_⟩
    · intro v s hlen hs
      cases v with
      | null =>
        rw [show printVal false .null = ['n', 'u', 'l', 'l'] from by simp [printVal]]
        rfl
      | bool b =>
        cases b with
        | true =>
          rw [show printVal false (.bool true) = ['t', 'r', 'u', 'e'] from by simp [printVal]]
          rfl
        | false =>
          rw [show printVal false (.bool false) = ['f', 'a', 'l', 's', 'e'] from by
            simp [printVal]]
          rfl
      | num i =>
        rw [show printVal false (.num i) = printInt i from by simp [printVal]]
        by_cases hi : i < 0
        · rw [show printInt i = '-' :: natDigits i.natAbs from by simp [printInt, hi],
            List.cons_append]
          show (match parseNum (natDigits i.natAbs ++ s) with
                | some (n, rest) => some (Json.num (-(n : Int)), rest)
                | none => none) = some (.num i, s)
          rw [parseNum_natDigits _ hs]
          have hival : -((i.natAbs : Int)) = i := by omega
          show some (Json.num (-((i.natAbs : Int))), s) = some (Json.num i, s)
          rw [hival]
        · rw [show printInt i = natDigits i.natAbs from by simp [printInt, hi]]
          obtain ⟨d, ds, hds, hd⟩ := natDigits_cons i.natAbs
          obtain ⟨p1, p2, p3, p4, p5, p6, p7, p8, -, -⟩ := digitChar_props hd
          rw [hds, List.cons_append, parseVal_succ, skipWs_cons _ p1]
          show (if digitChar d = '{' then _ else _) = some (.num i, s)
          rw [if_neg p2, if_neg p3, if_neg p4, if_neg p5, if_neg p6, if_neg p7, if_neg p8,
            ← List.cons_append, ← hds, parseNum_natDigits _ hs]
          have hival : ((i.natAbs : Int)) = i := by omega
          show some (Json.num ((i.natAbs : Int)), s) = some (Json.num i, s)
          rw [hival]
      | str t =>
        rw [show printVal false (.str t) = '"' :: (escStr false t ++ ['"']) from by
            simp [printVal],
          List.cons_append, List.append_assoc, List.singleton_append]
        show (match parseStr (escStr false t ++ ('"' :: s)) with
              | some (p, rest) => some (Json.str p, rest)
              | none => none) = some (.str t, s)
        rw [parseStr_escStr]
      | arr l =>
        cases l with
        | nil =>
          rw [show printVal false (.arr []) = ['[', ']'] from by simp [printVal]]
          rfl
        | cons v vs =>
          rw [show printVal false (.arr (v :: vs)) =
              '[' :: (printVal false v ++ printArrRest false vs) from by simp [printVal]]
            at hlen ⊢
          simp only [List.length_cons, List.length_append] at hlen
          have hLv := printVal_length_pos v
          have hLr := printArrRest_length_pos vs
          obtain ⟨c0, cs0, hv, hws, hne1, -⟩ := printVal_cons v
          rw [List.cons_append, List.append_assoc]
          show (match skipWs (printVal false v ++ (printArrRest false vs ++ s)) with
                | [] => none
                | c1 :: r1 =>
                  if c1 = ']' then some (Json.arr [], r1)
                  else
                    match parseVal fuel (c1 :: r1) with
                    | some (v1, rest) =>
                      match parseArrRest fuel rest with
                      | some (vs1, rest1) => some (Json.arr (v1 :: vs1), rest1)
                      | none => none
                    | none => none) = some (.arr (v :: vs), s)
          rw [hv, List.cons_append, skipWs_cons _ hws]
          show (if c0 = ']' then some (Json.arr [], cs0 ++ (printArrRest false vs ++ s))
                else
                  match parseVal fuel (c0 :: (cs0 ++ (printArrRest false vs ++ s))) with
                  | some (v1, rest) =>
                    match parseArrRest fuel rest with
                    | some (vs1, rest1) => some (Json.arr (v1 :: vs1), rest1)
                    | none => none
                  | none => none) = some (.arr (v :: vs), s)
          rw [if_neg hne1, ← List.cons_append, ← hv]
          have h1 := ihV v (printArrRest false vs ++ s) (by omega) (nonDigit_printArrRest vs s)
          have h2 := ihA vs s (by omega) hs
          simp [h1, h2]
      | obj l =>
        cases l with
        | nil =>
          rw [show printVal false (.obj []) = ['{', '}'] from by simp [printVal]]
          rfl
        | cons f fs =>
          rw [show printVal false (.obj (f :: fs)) =
              '{' :: (printField false f ++ printObjRest false fs) from by simp [printVal]]
            at hlen ⊢
          simp only [List.length_cons, List.length_append] at hlen
          have hLf : 1 ≤ (printField false f).length := by
            obtain ⟨k, v0⟩ := f
            rw [printField_eq]
            simp
          have hLo := printObjRest_length_pos fs
          obtain ⟨tl, hf⟩ : ∃ tl, printField false f = '"' :: tl := by
            obtain ⟨k, v0⟩ := f
            rw [printField_eq]
            exact ⟨_, rfl⟩
          rw [List.cons_append, List.append_assoc]
          show (match skipWs (printField false f ++ (printObjRest false fs ++ s)) with
                | [] => none
                | c1 :: r1 =>
                  if c1 = '}' then some (Json.obj [], r1)
                  else
                    match parseField fuel (c1 :: r1) with
                    | some (f1, rest) =>
                      match parseObjRest fuel rest with
                      | some (fs1, rest1) => some (Json.obj (f1 :: fs1), rest1)
                      | none => none
                    | none => none) = some (.obj (f :: fs), s)
          rw [hf, List.cons_append, skipWs_cons _ (by decide)]
          show (if ('"' : Char) = '}' then some (Json.obj [], tl ++ (printObjRest false fs ++ s))
                else
                  match parseField fuel ('"' :: (tl ++ (printObjRest false fs ++ s))) with
                  | some (f1, rest) =>
                    match parseObjRest fuel rest with
                    | some (fs1, rest1) => some (Json.obj (f1 :: fs1), rest1)
                    | none => none
                  | none => none) = some (.obj (f :: fs), s)
          rw [if_neg (by decide), ← List.cons_append, ← hf]
          have h1 := ihF f (printObjRest false fs ++ s) (by omega) (nonDigit_printObjRest fs s)
          have h2 := ihO fs s (by omega) hs
          simp [h1, h2]
    · intro vs s hlen hs
      cases vs with
      | nil =>
        rw [show printArrRest false [] = [']'] from by simp [printArrRest]]
        rfl
      | cons v vs =>
        rw [show printArrRest false (v :: vs) =
            ',' :: (printVal false v ++ printArrRest false vs) from by simp [printArrRest]]
          at hlen ⊢
        simp only [List.length_cons, List.length_append] at hlen
        have hLv := printVal_length_pos v
        have hLr := printArrRest_length_pos vs
        rw [List.cons_append, List.append_assoc]
        show (match parseVal fuel (printVal false v ++ (printArrRest false vs ++ s)) with
              | some (v1, rest) =>
                match parseArrRest fuel rest with
                | some (vs1, rest1) => some (v1 :: vs1, rest1)
                | none => none
              | none => none) = some (v :: vs, s)
        have h1 := ihV v (printArrRest false vs ++ s) (by omega) (nonDigit_printArrRest vs s)
        have h2 := ihA vs s (by omega) hs
        simp [h1, h2]
    · intro f s hlen hs
      obtain ⟨k, v⟩ := f
      rw [printField_eq] at hlen ⊢
      simp only [List.length_cons, List.length_append] at hlen
      have hLv := printVal_length_pos v
      rw [List.cons_append]
      show (match parseStr ((escStr false k ++ '"' :: ':' :: printVal false v) ++ s) with
            | some (k1, rest) =>
              match skipWs rest with
              | [] => none
              | c1 :: r1 =>
                if c1 = ':' then
                  match parseVal fuel r1 with
                  | some (v1, rest1) => some ((k1, v1), rest1)
                  | none => none
                else none
            | none => none) = some ((k, v), s)
      rw [show (escStr false k ++ '"' :: ':' :: printVal false v) ++ s
          = escStr false k ++ ('"' :: (':' :: (printVal false v ++ s))) from by simp,
        parseStr_escStr]
      have h1 := ihV v s (by omega) hs
      simp [skipWs_cons _ (show isWs ':' = false from by decide), h1]
    · intro fs s hlen hs
      cases fs with
      | nil =>
        rw [show printObjRest false [] = ['}'] from by simp [printObjRest]]
        rfl
      | cons f fs =>
        rw [show printObjRest false (f :: fs) =
            ',' :: (printField false f ++ printObjRest false fs) from by simp [printObjRest]]
          at hlen ⊢
        simp only [List.length_cons, List.length_append] at hlen
        have hLf : 1 ≤ (printField false f).length := by
          obtain ⟨k, v0⟩ := f
          rw [printField_eq]
          simp
        have hLo := printObjRest_length_pos fs
        rw [List.cons_append, List.append_assoc]
        show (match parseField fuel (printField false f ++ (printObjRest false fs ++ s)) with
              | some (f1, rest) =>
                match parseObjRest fuel rest with
                | some (fs1, rest1) => some (f1 :: fs1, rest1)
                | none => none
              | none => none) = some (f :: fs, s)
        have h1 := ihF f (printObjRest false fs ++ s) (by omega) (nonDigit_printObjRest fs s)
        have h2 := ihO fs s (by omega) hs
        simp [h1, h2]

/-- Decoding the compact rendering of a value recovers exactly that value,
with nothing left unread. -/
theorem jsonDecode_printVal (v : Json) :
    jsonDecode (printVal false v) = some (v, []) := by
  have h := (printParse ((printVal false v).length + 1)).1 v [] (by omega) rfl
  simpa [jsonDecode] using h

/-- Decoding a compact rendering followed by arbitrary trailing bytes (not
extending a number literal) recovers the value and leaves the trailing
bytes unread. -/
theorem jsonDecode_printVal_append (v : Json) (garbage : List Char)
    (hg : nonDigit garbage = true) :
    jsonDecode (printVal false v ++ garbage) = some (v, garbage) := by
  have h := (printParse ((printVal false v ++ garbage).length + 1)).1 v garbage
    (by simp [List.length_append]; omega) hg
  simpa [jsonDecode] using h

/-! ## The claims -/

/-- Whenever the payload's first JSON value decodes, the adapter calls the
user function with the context and the decoded value, whatever the user
function then returns. -/
theorem userCall_mem_of_decode (f : Handler) (h : HandlerOptions) (buf : List Char)
    (ctx : Context) (payload : List Char) (v : Json) (rest : List Char)
    (hdec : jsonDecode payload = some (v, rest)) :
    Event.userCall ctx v ∈ (reflectInvoke (some f) h buf ctx payload).events := by
  simp only [reflectInvoke, hdec]
  cases hcall : f ctx v <;> simp

/-- C1 counterexample: the specification claims the registration surface
accepts all eight handler shapes, but the source's `HandlerFunc[TIn, TOut]`
constraint has the single core type `func(context.Context, TIn) (TOut,
error)` — the zero-parameter shape (among others) is claimed by the spec
yet not accepted by the source. -/
theorem handler_shape_counterexample :
    HandlerShape.bare ∈ specClaimedShapes ∧ HandlerShape.bare ∉ sourceHandlerShapes := by
  decide

/-- C1 (amended): the handler-registration surface accepts user functions
of exactly one shape — a leading context parameter and a typed input
parameter, returning a typed output and a trailing error — and on every
invocation that decodes, the adapter invokes the user function with both
the context and the decoded input. -/
theorem handler_single_shape :
    sourceHandlerShapes = [HandlerShape.ctxInOut] ∧
    ∀ (f : Handler) (h : HandlerOptions) (buf : List Char) (ctx : Context)
      (payload : List Char) (v : Json) (rest : List Char),
      jsonDecode payload = some (v, rest) →
      Event.userCall ctx v ∈ (reflectInvoke (some f) h buf ctx payload).events :=
  ⟨rfl, userCall_mem_of_decode⟩

theorem handler_single_shape_witness :
    jsonDecode ['1'] = some (.num 1, []) ∧
    Event.userCall Context.background (Json.num 1) ∈
      (reflectInvoke (some fun _ e => .ok e) defaultOptions [] Context.background ['1']).events :=
  ⟨rfl, handler_single_shape.2 (fun _ e => .ok e) defaultOptions [] Context.background
    ['1'] (Json.num 1) [] rfl⟩

/-- C2: with a nil user-function reference, construction still succeeds
(`newHandler` is total and `reflectHandler` substitutes the permanent
`errorHandler`), and every subsequent invocation — for every context and
payload — returns no output bytes and the same error, whose message is
"handler is nil"; the reusable buffer is not even touched. -/
theorem nil_handler_permanent_error (opts : List HOption) (buf : List Char)
    (ctx : Context) (payload : List Char) :
    reflectInvoke none (newHandler opts).1 buf ctx payload =
      { buffer := buf, result := .error .nilHandler, events := [] } ∧
    InvokeErr.message .nilHandler = "handler is nil" :=
  ⟨rfl, rfl⟩

/-- C5: when the payload fails to decode, the invocation returns the
decode error immediately: the user function is never called, no trace
callback runs, and no output bytes are produced (the buffer holds only its
reset state). -/
theorem decode_failure_halts (f : Handler) (h : HandlerOptions) (buf : List Char)
    (ctx : Context) (payload : List Char) (hfail : jsonDecode payload = none) :
    reflectInvoke (some f) h buf ctx payload =
      { buffer := [], result := .error .decodeErr, events := [] } ∧
    ∀ ev, ev ∉ (reflectInvoke (some f) h buf ctx payload).events := by
  refine ⟨by simp [reflectInvoke, hfail], ?_⟩
  intro ev
  simp [reflectInvoke, hfail]

theorem decode_failure_halts_witness :
    jsonDecode ['x'] = none ∧
    reflectInvoke (some fun _ e => .ok e) defaultOptions [] Context.background ['x'] =
      { buffer := [], result := .error .decodeErr, events := [] } :=
  ⟨rfl, (decode_failure_halts (fun _ e => .ok e) defaultOptions [] Context.background
    ['x'] rfl).1⟩

/-- C4: when the user function returns an error, the invoker returns
exactly no bytes and that same error, the encoding step never runs (no
`encoded` event), and the reusable buffer holds only its reset state. -/
theorem user_error_propagates_verbatim (f : Handler) (h : HandlerOptions)
    (buf : List Char) (ctx : Context) (payload : List Char) (v : Json)
    (rest : List Char) (e : String)
    (hdec : jsonDecode payload = some (v, rest)) (herr : f ctx v = .error e) :
    reflectInvoke (some f) h buf ctx payload =
      { buffer := []
        result := .error (.userErr e)
        events := (if ctx.hasRequestEvent then [Event.requestTrace v] else []) ++
          [.userCall ctx v] } ∧
    ∀ w, Event.encoded w ∉ (reflectInvoke (some f) h buf ctx payload).events := by
  refine ⟨by simp [reflectInvoke, hdec, herr], ?_⟩
  intro w
  simp only [reflectInvoke, hdec, herr]
  cases ctx.hasRequestEvent <;> simp

theorem user_error_propagates_verbatim_witness :
    jsonDecode ['1'] = some (.num 1, []) ∧
    reflectInvoke (some fun _ _ => .error "boom") defaultOptions [] Context.background ['1'] =
      { buffer := []
        result := .error (.userErr "boom")
        events := [.userCall Context.background (Json.num 1)] } := by
  refine ⟨rfl, ?_⟩
  have h := (user_error_propagates_verbatim (fun _ _ => .error "boom") defaultOptions []
    Context.background ['1'] (Json.num 1) [] "boom" rfl rfl).1
  simpa using h

/-- C3: on a successful invocation, when both indentation settings are
empty exactly the encoder's single trailing newline is stripped (the
returned bytes are the compact rendering, and the encoder had written that
rendering plus one newline); when either setting is non-empty the encoder
output is returned untouched, still ending in its trailing newline. -/
theorem trailing_newline_policy (f : Handler) (h : HandlerOptions)
    (buf : List Char) (ctx : Context) (payload : List Char) (v : Json)
    (rest : List Char) (out : Json)
    (hdec : jsonDecode payload = some (v, rest)) (hok : f ctx v = .ok out) :
    (h.jsonResponseIndentPrefix = [] → h.jsonResponseIndentValue = [] →
      (reflectInvoke (some f) h buf ctx payload).result =
        .ok (printVal h.jsonResponseEscapeHTML out) ∧
      encodeOut h out = printVal h.jsonResponseEscapeHTML out ++ ['\n']) ∧
    (¬ (h.jsonResponseIndentPrefix = [] ∧ h.jsonResponseIndentValue = []) →
      (reflectInvoke (some f) h buf ctx payload).result = .ok (encodeOut h out) ∧
      (encodeOut h out).getLast? = some '\n') := by
  constructor
  · intro hp hv
    constructor
    · simp [reflectInvoke, hdec, hok, encodeOut, hp, hv, List.dropLast_concat]
    · simp [encodeOut, hp, hv]
  · intro hne
    have hne' : ¬ (h.jsonResponseIndentValue = [] ∧ h.jsonResponseIndentPrefix = []) := by
      tauto
    constructor
    · simp [reflectInvoke, hdec, hok, hne']
    · simp [encodeOut, List.getLast?_concat]

theorem trailing_newline_policy_witness :
    jsonDecode ['1'] = some (.num 1, []) ∧
    (reflectInvoke (some fun _ e => .ok e) defaultOptions [] Context.background ['1']).result =
      .ok ['1'] ∧
    (reflectInvoke (some fun _ e => .ok e) (newHandler [WithSetIndent [] [' ']]).1
        [] Context.background ['1']).result =
      .ok (encodeOut (newHandler [WithSetIndent [] [' ']]).1 (Json.num 1)) := by
  refine ⟨rfl, ?_, ?_⟩
  · have h := ((trailing_newline_policy (fun _ e => .ok e) defaultOptions []
      Context.background ['1'] (Json.num 1) [] (Json.num 1) rfl rfl).1 rfl rfl).1
    simpa [defaultOptions, printVal, printInt, natDigits, digitChar] using h
  · exact ((trailing_newline_policy (fun _ e => .ok e) (newHandler [WithSetIndent [] [' ']]).1
      [] Context.background ['1'] (Json.num 1) [] (Json.num 1) rfl rfl).2 (by simp [newHandler,
        defaultOptions, WithSetIndent])).1

/-- C6: wrapping the identity handler, every payload whose first JSON
value decodes yields output bytes that decode back to exactly the same
document value — all keys and values preserved. -/
theorem identity_roundtrip (buf : List Char) (ctx : Context) (payload : List Char)
    (v : Json) (rest : List Char) (hdec : jsonDecode payload = some (v, rest)) :
    ∃ out,
      (reflectInvoke (some fun _ e => .ok e) defaultOptions buf ctx payload).result =
        .ok out ∧
      jsonDecode out = some (v, []) := by
  refine ⟨printVal false v, ?_, jsonDecode_printVal v⟩
  simp [reflectInvoke, hdec, encodeOut, defaultOptions, List.dropLast_concat]

theorem identity_roundtrip_witness :
    jsonDecode ['[', '1', ',', 't', 'r', 'u', 'e', ']'] =
      some (.arr [.num 1, .bool true], []) ∧
    ∃ out,
      (reflectInvoke (some fun _ e => .ok e) defaultOptions [] Context.background
          ['[', '1', ',', 't', 'r', 'u', 'e', ']']).result = .ok out ∧
      jsonDecode out = some (.arr [.num 1, .bool true], []) :=
  ⟨rfl, identity_roundtrip [] Context.background _ (.arr [.num 1, .bool true]) [] rfl⟩

/-- C8: with the HTML-escaping flag at its default (off) and no
indentation configured, a successful invocation whose output value is the
string value rendered from the characters of `<html>` returns exactly the
quoted bytes with the angle brackets unescaped and no trailing newline. -/
theorem html_unescaped_default :
    (reflectInvoke (some fun _ _ => Except.ok (Json.str ['<', 'h', 't', 'm', 'l', '>']))
        (newHandler []).1 [] Context.background ['1']).result =
      .ok ['"', '<', 'h', 't', 'm', 'l', '>', '"'] := by
  have hdec : jsonDecode ['1'] = some (.num 1, []) := rfl
  simp [reflectInvoke, hdec, encodeOut, newHandler, defaultOptions, printVal, escStr,
    escapeChar, List.dropLast_concat]

/-- C7: applying the shutdown-enable option accumulates callbacks
non-destructively in application order and sets the enablement flag; the
shutdown-signal listener registration happens as a side effect of adapter
construction, at most once and exactly when the flag is set; and when the
signal fires, the callbacks run in registration order, each exactly once
(two enables with callbacks `a` then `b` fire `[a, b]`). -/
theorem sigterm_accumulate_register_once (h : HandlerOptions)
    (as bs : List Callback) (a b : Callback) :
    (WithEnableSIGTERM bs (WithEnableSIGTERM as h)).sigtermCallbacks =
      h.sigtermCallbacks ++ as ++ bs ∧
    (WithEnableSIGTERM bs (WithEnableSIGTERM as h)).enableSIGTERM = true ∧
    newHandler [WithEnableSIGTERM [a], WithEnableSIGTERM [b]] =
      ({ defaultOptions with sigtermCallbacks := [a, b], enableSIGTERM := true }, [[a, b]]) ∧
    fireShutdown (newHandler [WithEnableSIGTERM [a], WithEnableSIGTERM [b]]).2 = [a, b] ∧
    (∀ opts : List HOption, (newHandler opts).2.length ≤ 1) ∧
    (∀ opts : List HOption,
      (newHandler opts).2 ≠ [] ↔ ((newHandler opts).1).enableSIGTERM = true) := by
  refine ⟨by simp [WithEnableSIGTERM], rfl, rfl, rfl, ?_, ?_⟩
  · intro opts
    simp only [newHandler]
    split <;> simp
  · intro opts
    simp only [newHandler]
    split <;> simp_all

/-- C9: when no recognized control-plane environment variable is set, the
startup dispatcher never hands control to any loop function and reports a
single fatal error whose message contains every environment variable name
it checked. -/
theorem missing_env_fatal (getenv loopErr : String → String)
    (henv : getenv "AWS_LAMBDA_RUNTIME_API" = "") :
    start getenv loopErr = [.fatal (missingEnvMsg startEnvNames)] ∧
    (∀ e v, StartEvent.loopCall e v ∉ start getenv loopErr) ∧
    ∀ name ∈ startEnvNames, name.data <:+: (missingEnvMsg startEnvNames).data := by
  have htrace : start getenv loopErr = [.fatal (missingEnvMsg startEnvNames)] := by
    simp [start, startLoop, startEnvNames, henv]
  refine ⟨htrace, ?_, ?_⟩
  · intro e v
    rw [htrace]
    simp
  · intro name hn
    simp only [startEnvNames, List.mem_singleton] at hn
    subst hn
    exact ⟨"expected AWS Lambda environment variables [".data,
      "] are not defined".data, by rfl⟩

theorem missing_env_fatal_witness :
    (fun _ : String => "") "AWS_LAMBDA_RUNTIME_API" = "" ∧
    start (fun _ => "") (fun _ => "") = [.fatal (missingEnvMsg startEnvNames)] :=
  ⟨rfl, (missing_env_fatal (fun _ => "") (fun _ => "") rfl).1⟩

/-- C10: with a non-nil handler, decoding consumes only the first JSON
value of the payload: when a first value decodes, the bytes after it —
including non-JSON garbage after a printed value — are ignored and the
user function runs on the value; the decode step fails exactly when no
first value can be read. -/
theorem decode_first_value_only (f : Handler) (h : HandlerOptions)
    (buf : List Char) (ctx : Context) (payload : List Char) :
    (∀ v rest, jsonDecode payload = some (v, rest) →
      Event.userCall ctx v ∈ (reflectInvoke (some f) h buf ctx payload).events ∧
      (reflectInvoke (some f) h buf ctx payload).result ≠ .error .decodeErr) ∧
    ((reflectInvoke (some f) h buf ctx payload).result = .error .decodeErr ↔
      jsonDecode payload = none) ∧
    (∀ v garbage, nonDigit garbage = true →
      Event.userCall ctx v ∈
        (reflectInvoke (some f) h buf ctx (printVal false v ++ garbage)).events) := by
  refine ⟨?_, ?_, ?_⟩
  · intro v rest hdec
    refine ⟨userCall_mem_of_decode f h buf ctx payload v rest hdec, ?_⟩
    simp only [reflectInvoke, hdec]
    cases hcall : f ctx v <;> simp
  · cases hdec : jsonDecode payload with
    | none => simp [reflectInvoke, hdec]
    | some p =>
      obtain ⟨v, rest⟩ := p
      simp only [reflectInvoke, hdec]
      cases hcall : f ctx v <;> simp
  · intro v garbage hg
    exact userCall_mem_of_decode f h buf ctx _ v garbage
      (jsonDecode_printVal_append v garbage hg)

theorem decode_first_value_only_witness :
    jsonDecode ['1', ' ', 'x', 'y'] = some (.num 1, [' ', 'x', 'y']) ∧
    Event.userCall Context.background (Json.num 1) ∈
      (reflectInvoke (some fun _ e => .ok e) defaultOptions [] Context.background
        ['1', ' ', 'x', 'y']).events :=
  ⟨rfl, ((decode_first_value_only (fun _ e => .ok e) defaultOptions [] Context.background
    ['1', ' ', 'x', 'y']).1 (.num 1) [' ', 'x', 'y'] rfl).1⟩

end AwsLambda
